import Mathlib

/-!
# ffind — shallow embedding and verification

A shallow embedding of `src/ffind.c`, a parallel directory-tree search tool,
together with proofs about its components:

* the pure matcher helpers `wcontains_i`, `basename_ptr`, `ext_allowed`
  (lines 23–59 of the source);
* the work queue `wq_pop` / `wq_done_one` and its termination-detection
  protocol (lines 100–189), modelled as a pure pop-evaluation function and as
  a labelled transition system over queue state plus per-worker states;
* the worker loop `worker_thread` (lines 206–272), modelled twice: over a
  finite static directory tree (for the match-set results) and over an
  arbitrary enumeration oracle (for cycle/termination results);
* the argument handling and exit codes of `wmain` (lines 286–385).

Wide strings (`wchar_t *`) are modelled as `List Char`; `towlower` is
modelled by `Char.toLower`.
-/

/-- Helper: dropping a prefix never lengthens a list (used for termination of
the extension-list scanning loops). -/
theorem dropWhile_len_le (p : Char → Bool) (l : List Char) :
    (l.dropWhile p).length ≤ l.length := by
  induction l with
  | nil => simp [List.dropWhile]
  | cons c r ih =>
    by_cases h : p c = true <;> simp [List.dropWhile, h]
    omega

/-- `_wcsnicmp(l, n, wcslen n) == 0`: the first `n.length` characters of `l`
case-insensitively equal `n`.  The C comparison stops at a terminator, so a
hay suffix shorter than the needle compares unequal (terminator vs. a
non-terminator character), which the `[]`/`_ :: _` case reflects. -/
def wcsnicmpEq : List Char → List Char → Bool
  | _, [] => true
  | [], _ :: _ => false
  | c :: r, d :: s => (Char.toLower c = Char.toLower d) && wcsnicmpEq r s

/-- The scan loop of `wcontains_i` (src/ffind.c:26–28): try a case-insensitive
counted compare at every non-empty suffix position of the hay. -/
def scanContains (needle : List Char) : List Char → Bool
  | [] => false
  | c :: r => wcsnicmpEq (c :: r) needle || scanContains needle r

/-- `wcontains_i` (src/ffind.c:23–30): case-insensitive substring containment;
a null/empty needle returns 1 immediately. -/
def wcontains_i (hay needle : List Char) : Bool :=
  if needle = [] then true else scanContains needle hay

/-- `basename_ptr` (src/ffind.c:32–38): the suffix of the path after the last
`\` or `/` (the whole path if it has no separator). -/
def basename_ptr (path : List Char) : List Char :=
  (path.reverse.takeWhile (fun c => c ≠ '\\' ∧ c ≠ '/')).reverse

/-- The separator characters skipped before each extension-list entry
(src/ffind.c:50): comma, space, tab. -/
def isExtSep (c : Char) : Bool := c = ',' || c = ' ' || c = '\t'

/-- Case-insensitive equality of two character lists, including the length
check `wcslen(ext) == len` of src/ffind.c:55. -/
def lowEq (a b : List Char) : Bool := a.map Char.toLower == b.map Char.toLower

/-- The entry loop of `ext_allowed` (src/ffind.c:48–57): skip leading
commas/spaces/tabs, read an entry up to the next comma (or end of string),
accept on a case-insensitive equal non-empty entry, otherwise continue.
When the head is not a separator the entry necessarily has positive length,
so the `len > 0` guard of line 54 is implicit in that branch. -/
def entLoop (ext : List Char) : List Char → Bool
  | [] => false
  | c :: rest =>
    if isExtSep c then entLoop ext rest
    else lowEq ext (c :: rest.takeWhile (fun x => x ≠ ',')) ||
         entLoop ext (rest.dropWhile (fun x => x ≠ ','))
termination_by l => l.length
decreasing_by
  · simp
  · simp only [List.length_cons]
    exact Nat.lt_succ_of_le (dropWhile_len_le _ _)

/-- The entries that the loop of src/ffind.c:48–57 actually visits with
positive length: skip leading separator characters, then take everything up
to the next comma. -/
def csvEntries : List Char → List (List Char)
  | [] => []
  | c :: rest =>
    if isExtSep c then csvEntries rest
    else (c :: rest.takeWhile (fun x => x ≠ ',')) ::
         csvEntries (rest.dropWhile (fun x => x ≠ ','))
termination_by l => l.length
decreasing_by
  · simp
  · simp only [List.length_cons]
    exact Nat.lt_succ_of_le (dropWhile_len_le _ _)

/-- `wcsrchr(filename, '.')` followed by the `!dot` test (src/ffind.c:44–46):
the text after the last `.` of the name, or `none` when there is no dot. -/
def extAfterLastDot (name : List Char) : Option (List Char) :=
  if '.' ∈ name then some ((name.reverse.takeWhile (fun c => c ≠ '.')).reverse)
  else none

/-- `ext_allowed` (src/ffind.c:41–59): empty list allows everything; a name
with no dot, or with nothing after the last dot (`!dot[1]`), fails; otherwise
the extension is compared case-insensitively against the list entries. -/
def ext_allowed (filename extcsv : List Char) : Bool :=
  if extcsv = [] then true
  else
    match extAfterLastDot filename with
    | none => false
    | some ext => if ext = [] then false else entLoop ext extcsv

/-- Splitting a string at commas (keeping empty pieces).  Used only to state
what the entry scan of src/ffind.c:48–57 computes: comma-separated pieces,
each then stripped of its leading separator characters. -/
def splitComma : List Char → List (List Char)
  | [] => [[]]
  | c :: rest =>
    if c = ',' then [] :: splitComma rest
    else
      match splitComma rest with
      | g :: gs => (c :: g) :: gs
      | [] => [[c]]

-- -------------------- work queue (src/ffind.c:100–189) --------------------

/-- The shared state guarded by `q->mu`: the FIFO of pending directories
(`head`/`tail` chain of `Node`s), the `active_workers` count and the `stop`
flag (src/ffind.c:105–111). -/
structure WorkQ (α : Type) where
  queue : List α
  active : Nat
  stop : Bool
deriving DecidableEq

/-- The three ways one evaluation of the `wq_pop` loop body can end: return
the stop signal (`NULL`), return a directory, or block on the condition
variable (`SleepConditionVariableCS`) and re-evaluate after wakeup. -/
inductive PopOutcome (α : Type) where
  | stopSignal
  | dir (d : α)
  | block
deriving DecidableEq

/-- One atomic evaluation of the body of the `wq_pop` loop
(src/ffind.c:155–181), performed under the critical section: if `stop` is
set return the stop signal; else if the FIFO is non-empty detach the head
and increment `active_workers`; else if `active_workers` is zero set `stop`,
wake everyone and return the stop signal; else block. -/
def wq_pop_eval {α : Type} (q : WorkQ α) : PopOutcome α × WorkQ α :=
  if q.stop then (.stopSignal, q)
  else
    match q.queue with
    | d :: rest => (.dir d, ⟨rest, q.active + 1, q.stop⟩)
    | [] =>
      if q.active = 0 then (.stopSignal, ⟨q.queue, q.active, true⟩)
      else (.block, q)

/-- The phase a single worker thread is in: `idle` (about to call `wq_pop`),
`holding` (returned from `wq_pop` with a directory, not yet called
`wq_done_one`), `waiting` (blocked inside `wq_pop` on the condition
variable), `stopped` (observed the stop signal and exited the loop). -/
inductive WkSt where
  | idle
  | holding
  | waiting
  | stopped
deriving DecidableEq

/-- The interleaved system: shared queue state plus the list of worker
states.  Each constructor is one atomic action of one worker, taken under
the queue mutex exactly as in src/ffind.c:

* `popTake`: non-empty FIFO case of `wq_pop` (lines 162–170);
* `popStop`: the terminal transition (lines 173–177);
* `popSeeStop`: the `stop` short-circuit (lines 158–160), taken by an idle
  caller or by a woken blocked worker re-evaluating the loop;
* `popBlock`: `SleepConditionVariableCS` (line 179);
* `push`: `wq_push_owned` (lines 136–152), only ever called by a worker that
  is holding a popped directory (src/ffind.c:248);
* `doneOne`: `wq_done_one` (lines 184–189). -/
inductive SysStep (α : Type) :
    WorkQ α × List WkSt → WorkQ α × List WkSt → Prop where
  | popTake (d : α) (rest : List α) (a : Nat) (pre post : List WkSt) (w : WkSt)
      (hw : w = WkSt.idle ∨ w = WkSt.waiting) :
      SysStep α ⟨⟨d :: rest, a, false⟩, pre ++ w :: post⟩
                ⟨⟨rest, a + 1, false⟩, pre ++ WkSt.holding :: post⟩
  | popStop (pre post : List WkSt) (w : WkSt)
      (hw : w = WkSt.idle ∨ w = WkSt.waiting) :
      SysStep α ⟨⟨[], 0, false⟩, pre ++ w :: post⟩
                ⟨⟨[], 0, true⟩, pre ++ WkSt.stopped :: post⟩
  | popSeeStop (q : WorkQ α) (pre post : List WkSt) (w : WkSt)
      (hw : w = WkSt.idle ∨ w = WkSt.waiting) (hstop : q.stop = true) :
      SysStep α ⟨q, pre ++ w :: post⟩ ⟨q, pre ++ WkSt.stopped :: post⟩
  | popBlock (a : Nat) (pre post : List WkSt) (ha : a ≠ 0) :
      SysStep α ⟨⟨[], a, false⟩, pre ++ WkSt.idle :: post⟩
                ⟨⟨[], a, false⟩, pre ++ WkSt.waiting :: post⟩
  | push (q : WorkQ α) (d : α) (pre post : List WkSt) :
      SysStep α ⟨q, pre ++ WkSt.holding :: post⟩
                ⟨⟨q.queue ++ [d], q.active, q.stop⟩, pre ++ WkSt.holding :: post⟩
  | doneOne (q : WorkQ α) (pre post : List WkSt) :
      SysStep α ⟨q, pre ++ WkSt.holding :: post⟩
                ⟨⟨q.queue, q.active - 1, q.stop⟩, pre ++ WkSt.idle :: post⟩

/-- The launch state (src/ffind.c:325–364): the queue seeded with the root,
no active worker, `stop` clear, `K` workers about to call `wq_pop`. -/
def sysInit {α : Type} (root : α) (K : Nat) : WorkQ α × List WkSt :=
  ⟨⟨[root], 0, false⟩, List.replicate K WkSt.idle⟩

/-- States reachable from the launch state by interleaved worker actions. -/
def SysReach {α : Type} (root : α) (K : Nat) (s : WorkQ α × List WkSt) : Prop :=
  Relation.ReflTransGen (SysStep α) (sysInit root K) s

-- -------------------- worker loop over a static tree --------------------

/-- A node of a static directory tree: a plain file, or a directory entry
carrying its reparse-point flag (`FILE_ATTRIBUTE_REPARSE_POINT`) and its
children.  This is what `FindFirstFileW`/`FindNextFileW` enumerate for the
worker loop, one level at a time. -/
inductive FsNode where
  | file (name : List Char)
  | dir (name : List Char) (reparse : Bool) (children : List FsNode)

/-- The shared search configuration (`Ctx` fields set once in `wmain`,
src/ffind.c:193–202 and 295–345). -/
structure Config where
  root : List Char
  needle : List Char
  extcsv : List Char
  match_full_path : Bool
  threads : Int

/-- The worker path buffers hold `MAX_PATH * 8` wide characters
(src/ffind.c:210–211). -/
def CAPACITY : Nat := 260 * 8

/-- The `needs_slash` test shared by `join_path` and `make_glob`
(src/ffind.c:77, 89). -/
def needsSlash (dir : List Char) : Bool :=
  dir ≠ [] && dir.getLast? ≠ some '\\' && dir.getLast? ≠ some '/'

/-- `join_path` (src/ffind.c:74–84), the string it writes when it fits. -/
def join_str (dir name : List Char) : List Char :=
  dir ++ (if needsSlash dir then ['\\'] else []) ++ name

/-- The capacity test of `join_path` (src/ffind.c:78–79): the joined string
plus its terminator must fit the working buffer. -/
def join_fits (dir name : List Char) : Bool :=
  dir.length + (if needsSlash dir then 1 else 0) + name.length + 1 ≤ CAPACITY

/-- The capacity test of `make_glob` (src/ffind.c:90–91) for `dir ++ "\*"`. -/
def glob_fits (dir : List Char) : Bool :=
  dir.length + (if needsSlash dir then 1 else 0) + 1 + 1 ≤ CAPACITY

/-- `is_dot_or_dotdot` (src/ffind.c:69–71). -/
def is_dot_or_dotdot (s : List Char) : Bool :=
  s = ['.'] || s = ['.', '.']

/-- The per-file decision of the worker loop (src/ffind.c:252–255): the
extension filter on the entry name, then the case-insensitive substring test
against the full path or its basename according to `-f`. -/
def fileMatches (cfg : Config) (dirPath name : List Char) : Bool :=
  ext_allowed name cfg.extcsv &&
    wcontains_i
      (if cfg.match_full_path then join_str dirPath name
       else basename_ptr (join_str dirPath name))
      cfg.needle

/-- The entry-classification loop of `worker_thread` (src/ffind.c:233–264)
over the entries of one directory with path `p`: skip `.`/`..`, skip entries
whose joined path overflows the buffer, enqueue non-reparse subdirectories,
and emit matching files.  Returns (directories pushed, paths printed). -/
def procEntries (cfg : Config) :
    List Char → List FsNode → List (List Char × List FsNode) × List (List Char)
  | _, [] => ([], [])
  | p, FsNode.file n :: rest =>
    let t := procEntries cfg p rest
    if is_dot_or_dotdot n then t
    else if join_fits p n then
      (if fileMatches cfg p n then (t.1, join_str p n :: t.2) else t)
    else t
  | p, FsNode.dir n rp ch :: rest =>
    let t := procEntries cfg p rest
    if is_dot_or_dotdot n then t
    else if join_fits p n then
      (if rp then t else ((join_str p n, ch) :: t.1, t.2))
    else t

/-- Processing one popped directory (src/ffind.c:214–268): if the glob
pattern does not fit the buffer the directory is abandoned (the
`FindFirstFileW` failure path behaves the same way; on a static readable
tree enumeration itself succeeds). -/
def procDir (cfg : Config) (p : List Char) (es : List FsNode) :
    List (List Char × List FsNode) × List (List Char) :=
  if glob_fits p then procEntries cfg p es else ([], [])

/-- The reference match set, written from the claim: a depth-first walk that
collects every file passing both filters and descends into every directory
that is not flagged as a reparse point.  No buffer capacities and no
`.`/`..` pseudo-entries appear here; the correspondence theorem therefore
assumes the tree is within capacity and free of pseudo-entry names. -/
def specMatches (cfg : Config) : List Char → List FsNode → List (List Char)
  | _, [] => []
  | p, FsNode.file n :: rest =>
    (if fileMatches cfg p n then [join_str p n] else []) ++ specMatches cfg p rest
  | p, FsNode.dir n rp ch :: rest =>
    (if rp then [] else specMatches cfg (join_str p n) ch) ++ specMatches cfg p rest

/-- Well-formedness of a directory's subtree as seen from path `p`: no
`.`/`..` entry names, every joined path and glob pattern fits the working
buffers.  Reparse-point directories are exempt below the flag since they are
never entered. -/
def goodList : List Char → List FsNode → Bool
  | _, [] => true
  | p, FsNode.file n :: rest =>
    !is_dot_or_dotdot n && join_fits p n && goodList p rest
  | p, FsNode.dir n rp ch :: rest =>
    !is_dot_or_dotdot n && join_fits p n &&
      (rp || (glob_fits (join_str p n) && goodList (join_str p n) ch)) &&
      goodList p rest

/-- A directory with path `p` and entries `es` whose whole reachable subtree
is within capacity and free of pseudo-entry names. -/
def goodDir (p : List Char) (es : List FsNode) : Bool :=
  glob_fits p && goodList p es

/-- A snapshot of a traversal: the multiset of directories sitting in the
work queue or held by a worker (each with its subtree), and the lines
printed so far. -/
structure RunSt where
  pending : List (List Char × List FsNode)
  out : List (List Char)

/-- One worker finishing one directory: any pending directory may be the one
processed (this nondeterministic choice subsumes every FIFO schedule of
every worker count `K ≥ 1`).  Its matches are printed and its non-reparse
subdirectories join the pending work, exactly as computed by `procDir`. -/
inductive RunStep (cfg : Config) : RunSt → RunSt → Prop where
  | proc (pre post : List (List Char × List FsNode)) (p : List Char)
      (es : List FsNode) (out : List (List Char)) :
      RunStep cfg ⟨pre ++ (p, es) :: post, out⟩
        ⟨pre ++ post ++ (procDir cfg p es).1, out ++ (procDir cfg p es).2⟩

/-- Multiset of paths the reference walk would print for each pending
directory. -/
def pendingSpec (cfg : Config) (l : List (List Char × List FsNode)) :
    Multiset (List Char) :=
  (l.map fun q => ((specMatches cfg q.1 q.2 : List (List Char)) :
    Multiset (List Char))).sum

-- -------------------- worker loop over an enumeration oracle ------------

/-- A raw directory entry as returned by the enumerator: name, directory
flag, reparse flag (`WIN32_FIND_DATAW.dwFileAttributes`). -/
structure DEnt where
  name : List Char
  isDir : Bool
  reparse : Bool

/-- The directories one processed directory pushes onto the queue
(src/ffind.c:233–248), against an arbitrary enumeration oracle `listDir`
(`none` = `FindFirstFileW` failed).  An entry is pushed exactly when it is
not `.`/`..`, its joined path fits, it is a directory, and it is **not** a
reparse point. -/
def pushedFrom (listDir : List Char → Option (List DEnt)) (p : List Char) :
    List (List Char) :=
  if glob_fits p then
    match listDir p with
    | none => []
    | some es =>
      (es.filter fun e =>
        !is_dot_or_dotdot e.name && join_fits p e.name && e.isDir && !e.reparse).map
        fun e => join_str p e.name
  else []

/-- Queue evolution against the oracle: some pending directory is scanned
and replaced by the subdirectories it pushes.  The oracle may describe a
cyclic link structure; only what `pushedFrom` keeps is ever followed. -/
inductive GStep (listDir : List Char → Option (List DEnt)) :
    List (List Char) → List (List Char) → Prop where
  | proc (pre post : List (List Char)) (p : List Char) :
      GStep listDir (pre ++ p :: post) (pre ++ post ++ pushedFrom listDir p)

/-- Total weight of the pending directories under a rank function `m`. -/
def totalWeight (m : List Char → Nat) (pending : List (List Char)) : Nat :=
  (pending.map m).sum

-- -------------------- wmain: arguments and exit codes -------------------

/-- The whitespace characters `iswspace` accepts for `_wtoi`. -/
def isWtoiSpace (c : Char) : Bool :=
  c = ' ' || c = '\t' || c = '\n' || c = '\x0b' || c = '\x0c' || c = '\r'

/-- The digit-accumulation loop of `_wtoi`. -/
def digitsAcc : List Char → Int → Int
  | [], acc => acc
  | c :: r, acc => if c.isDigit then digitsAcc r (acc * 10 + ((c.toNat : Int) - 48)) else acc

/-- `_wtoi` (used at src/ffind.c:310): skip leading whitespace, optional
sign, then decimal digits up to the first non-digit; no digits yields 0.
Overflow is not modelled. -/
def wtoi (s : List Char) : Int :=
  match s.dropWhile isWtoiSpace with
  | '-' :: r => -(digitsAcc r 0)
  | '+' :: r => digitsAcc r 0
  | r => digitsAcc r 0

/-- The option loop of `wmain` (src/ffind.c:304–316): `-e` and `-t` consume
a value and are unknown options when none follows; `-f` is a bare flag; any
other argument prints usage and exits with code 2 (modelled as `none`). -/
def parseFlags (extcsv : List Char) (fullpath : Bool) (threads : Int) :
    List (List Char) → Option (List Char × Bool × Int)
  | [] => some (extcsv, fullpath, threads)
  | a :: v :: rest =>
    if a = "-e".data then parseFlags v fullpath threads rest
    else if a = "-f".data then parseFlags extcsv true threads (v :: rest)
    else if a = "-t".data then parseFlags extcsv fullpath (wtoi v) rest
    else none
  | [a] =>
    if a = "-f".data then some (extcsv, true, threads) else none

/-- Argument validation of `wmain` (src/ffind.c:295–316): fewer than two
positional arguments, or an unknown flag, yields `none` (usage text and exit
code 2, before any traversal); otherwise the configuration, with `extcsv`
defaulting to the empty string and `threads` to 0. -/
def parseArgs (argv : List (List Char)) : Option Config :=
  match argv with
  | _prog :: root :: needle :: rest =>
    (parseFlags [] false 0 rest).map fun eft =>
      ⟨root, needle, eft.1, eft.2.1, eft.2.2⟩
  | _ => none

/-- The worker-count default (src/ffind.c:318–323): a non-positive parsed
value is replaced by the logical-processor count `nproc`, floored at 1. -/
def effThreads (threads nproc : Int) : Int :=
  if threads ≤ 0 then (if nproc < 1 then 1 else nproc) else threads

/-- The exit code of `wmain` (src/ffind.c:295–385) as a function of the
arguments and of the two startup allocations (the root copy at line 329 and
the handle array at line 347).  Every run that gets past both allocations
ends with `return 0` (line 384) regardless of how many matches are found. -/
def wmain_exit (argv : List (List Char)) (allocRootOk allocHandlesOk : Bool) : Nat :=
  match parseArgs argv with
  | none => 2
  | some _ => if !allocRootOk then 1 else if !allocHandlesOk then 1 else 0

-- ==================== helper lemmas: matcher ====================

/-- Every entry the scan loop visits has positive length. -/
theorem csvEntries_ne_nil (l : List Char) : ∀ e ∈ csvEntries l, e ≠ [] := by
  induction l using csvEntries.induct with
  | case1 => simp [csvEntries]
  | case2 c rest h ih => rw [csvEntries, if_pos h]; exact ih
  | case3 c rest h ih =>
    rw [csvEntries, if_neg h]
    intro e he
    rcases List.mem_cons.mp he with h1 | h2
    · subst h1; simp
    · exact ih e h2

/-- The entry loop accepts exactly when some visited entry compares equal
case-insensitively. -/
theorem entLoop_iff (ext l : List Char) :
    entLoop ext l = true ↔ ∃ e ∈ csvEntries l, lowEq ext e = true := by
  induction l using csvEntries.induct with
  | case1 => simp [entLoop, csvEntries]
  | case2 c rest h ih => rw [entLoop, if_pos h, csvEntries, if_pos h]; exact ih
  | case3 c rest h ih =>
    rw [entLoop, if_neg h, csvEntries, if_neg h]
    simp only [ne_eq, decide_not] at ih
    simp [ih]

/-- A list made only of separator characters produces no entry, hence the
entry loop rejects. -/
theorem entLoop_all_sep (ext l : List Char) (h : ∀ c ∈ l, isExtSep c = true) :
    entLoop ext l = false := by
  induction l with
  | nil => rw [entLoop]
  | cons c rest ih =>
    rw [entLoop, if_pos (h c (List.mem_cons_self c rest))]
    exact ih fun x hx => h x (List.mem_cons_of_mem c hx)

/-- Prepending separator characters does not change what the entry loop
accepts. -/
theorem entLoop_append_sep (ext s l : List Char) (h : ∀ c ∈ s, isExtSep c = true) :
    entLoop ext (s ++ l) = entLoop ext l := by
  induction s with
  | nil => rfl
  | cons c rest ih =>
    rw [List.cons_append, entLoop, if_pos (h c (List.mem_cons_self c rest))]
    exact ih fun x hx => h x (List.mem_cons_of_mem c hx)

/-- An empty extension never equals a non-empty entry. -/
theorem lowEq_nil_left (e : List Char) (he : e ≠ []) : lowEq [] e = false := by
  cases e with
  | nil => exact absurd rfl he
  | cons a as => simp [lowEq]

/-- `_wcsnicmp` accepts exactly when the needle is a case-insensitive prefix
of the hay. -/
theorem wcsnicmpEq_iff (l n : List Char) :
    wcsnicmpEq l n = true ↔ ∃ t, l.map Char.toLower = n.map Char.toLower ++ t := by
  induction n generalizing l with
  | nil => simp [wcsnicmpEq]
  | cons d s ih =>
    cases l with
    | nil =>
      simp [wcsnicmpEq]
    | cons c r =>
      rw [wcsnicmpEq]
      simp only [List.map_cons, Bool.and_eq_true, decide_eq_true_eq, ih]
      constructor
      · rintro ⟨h1, t, h2⟩
        exact ⟨t, by simp [h1, h2]⟩
      · rintro ⟨t, h⟩
        simp only [List.cons_append, List.cons.injEq] at h
        exact ⟨h.1, t, h.2⟩

/-- The suffix scan finds a non-empty needle exactly when it occurs as a
case-insensitive substring. -/
theorem scanContains_iff (n hay : List Char) (hn : n ≠ []) :
    scanContains n hay = true ↔
      ∃ s t, hay.map Char.toLower = s ++ n.map Char.toLower ++ t := by
  induction hay with
  | nil =>
    rw [scanContains]
    simp only [List.map_nil, Bool.false_eq_true, false_iff]
    rintro ⟨s, t, h⟩
    rcases List.append_eq_nil.mp (List.append_eq_nil.mp h.symm).1 with ⟨-, h2⟩
    exact hn (List.map_eq_nil_iff.mp h2)
  | cons c r ih =>
    rw [scanContains]
    simp only [Bool.or_eq_true, wcsnicmpEq_iff, ih, List.map_cons]
    constructor
    · rintro (⟨t, ht⟩ | ⟨s, t, h⟩)
      · exact ⟨[], t, by simp [ht]⟩
      · exact ⟨Char.toLower c :: s, t, by simp [h]⟩
    · rintro ⟨s, t, h⟩
      cases s with
      | nil => exact Or.inl ⟨t, by simpa using h⟩
      | cons a s' =>
        simp only [List.cons_append, List.cons.injEq] at h
        exact Or.inr ⟨s', t, h.2⟩

/-- `wcontains_i` is exactly the case-insensitive substring test (the empty
needle is a substring of everything). -/
theorem wcontains_iff (hay n : List Char) :
    wcontains_i hay n = true ↔
      ∃ s t, hay.map Char.toLower = s ++ n.map Char.toLower ++ t := by
  by_cases hn : n = []
  · subst hn
    rw [wcontains_i, if_pos rfl]
    constructor
    · intro _
      exact ⟨[], List.map Char.toLower hay, by simp⟩
    · intro _
      rfl
  · rw [wcontains_i, if_neg hn]
    exact scanContains_iff n hay hn

/-- `splitComma` always yields at least one piece. -/
theorem splitComma_ne_nil (l : List Char) : splitComma l ≠ [] := by
  cases l with
  | nil => simp [splitComma]
  | cons c rest =>
    rw [splitComma]
    by_cases h : c = ','
    · simp [h]
    · rw [if_neg h]
      cases hs : splitComma rest <;> simp

/-- The head of a `dropWhile` result fails the predicate. -/
theorem dropWhile_head_not (p : Char → Bool) (l : List Char) (d : Char)
    (r : List Char) (h : l.dropWhile p = d :: r) : p d = false := by
  induction l with
  | nil => simp [List.dropWhile] at h
  | cons c cs ih =>
    rw [List.dropWhile_cons] at h
    by_cases hp : p c = true
    · rw [if_pos hp] at h
      exact ih h
    · rw [if_neg hp] at h
      injection h with h1 h2
      subst h1
      exact Bool.not_eq_true _ ▸ Bool.of_not_eq_true hp

/-- The head piece of `splitComma` is everything before the first comma; the
remaining pieces split what follows it. -/
theorem splitComma_take_drop (l : List Char) :
    splitComma l = l.takeWhile (fun x => x ≠ ',') ::
      (match l.dropWhile (fun x => x ≠ ',') with
       | [] => []
       | _ :: r => splitComma r) := by
  induction l with
  | nil => simp [splitComma]
  | cons c rest ih =>
    by_cases h : c = ','
    · subst h
      rw [splitComma, if_pos rfl]
      simp [List.takeWhile_cons, List.dropWhile_cons]
    · rw [splitComma, if_neg h, ih]
      have ht : List.takeWhile (fun x => !decide (x = ',')) (c :: rest) =
          c :: List.takeWhile (fun x => !decide (x = ',')) rest := by
        simp [List.takeWhile_cons, h]
      have hd : List.dropWhile (fun x => !decide (x = ',')) (c :: rest) =
          List.dropWhile (fun x => !decide (x = ',')) rest := by
        simp [List.dropWhile_cons, h]
      simp only [ne_eq, decide_not] at ht hd ⊢
      rw [ht, hd]

/-- What the entry scan of src/ffind.c:48–57 computes, phrased
declaratively: split the list at commas, strip each piece of its leading
separator characters, and keep the non-empty results. -/
theorem csvEntries_eq_splitComma (l : List Char) :
    csvEntries l =
      ((splitComma l).map (fun e => e.dropWhile isExtSep)).filter
        (fun e => e ≠ []) := by
  induction l using csvEntries.induct with
  | case1 => simp [csvEntries, splitComma]
  | case2 c rest h ih =>
    rw [csvEntries, if_pos h]
    by_cases hc : c = ','
    · subst hc
      rw [splitComma, if_pos rfl]
      simpa using ih
    · rw [splitComma, if_neg hc]
      rcases hs : splitComma rest with _ | ⟨g, gs⟩
      · exact absurd hs (splitComma_ne_nil rest)
      · rw [hs] at ih
        have hg : List.dropWhile isExtSep (c :: g) = List.dropWhile isExtSep g := by
          simp [List.dropWhile_cons, h]
        simpa [hg] using ih
  | case3 c rest h ih =>
    rw [csvEntries, if_neg h]
    rw [splitComma_take_drop (c :: rest)]
    have hc : ¬ c = ',' := fun hc => h (by simp [isExtSep, hc])
    have ht : List.takeWhile (fun x => !decide (x = ',')) (c :: rest) =
        c :: List.takeWhile (fun x => !decide (x = ',')) rest := by
      simp [List.takeWhile_cons, hc]
    have hd : List.dropWhile (fun x => !decide (x = ',')) (c :: rest) =
        List.dropWhile (fun x => !decide (x = ',')) rest := by
      simp [List.dropWhile_cons, hc]
    simp only [ne_eq, decide_not] at ht hd ih ⊢
    rw [ht, hd]
    have hcg : List.dropWhile isExtSep
        (c :: List.takeWhile (fun x => !decide (x = ',')) rest) =
        c :: List.takeWhile (fun x => !decide (x = ',')) rest := by
      rw [List.dropWhile_cons_of_neg]
      simpa using h
    rcases hr : List.dropWhile (fun x => !decide (x = ',')) rest with _ | ⟨d, r⟩
    · rw [hr] at ih
      simp [csvEntries, splitComma, hcg]
    · have hdc : d = ',' := by
        have h0 := dropWhile_head_not (fun x => !decide (x = ',')) rest d r hr
        simpa using h0
      subst hdc
      rw [hr] at ih
      rw [show splitComma (',' :: r) = [] :: splitComma r from by
        rw [splitComma, if_pos rfl]] at ih
      rw [show csvEntries (',' :: r) = csvEntries r from by
        rw [csvEntries, if_pos (by simp [isExtSep])]]
      rw [show csvEntries (',' :: r) = csvEntries r from by
        rw [csvEntries, if_pos (by simp [isExtSep])]] at ih
      simp at ih
      simp [hcg, ih]

/-- Full characterization of `ext_allowed` for a non-empty list: acceptance
is case-insensitive equality of the name's extension with a visited entry. -/
theorem ext_allowed_iff (name csv : List Char) (hcsv : csv ≠ []) :
    ext_allowed name csv = true ↔
      ∃ ext, extAfterLastDot name = some ext ∧
        ∃ e ∈ csvEntries csv, lowEq ext e = true := by
  rw [ext_allowed, if_neg hcsv]
  cases hdot : extAfterLastDot name with
  | none => simp
  | some ext =>
    dsimp only
    by_cases hext : ext = []
    · subst hext
      rw [if_pos rfl]
      simp only [Bool.false_eq_true, false_iff]
      rintro ⟨ext', hx, e, he, hl⟩
      injection hx with hx
      subst hx
      rw [lowEq_nil_left e (csvEntries_ne_nil csv e he)] at hl
      exact Bool.false_ne_true hl
    · rw [if_neg hext, entLoop_iff]
      constructor
      · rintro ⟨e, he, hl⟩
        exact ⟨ext, rfl, e, he, hl⟩
      · rintro ⟨ext', hx, e, he, hl⟩
        injection hx with hx
        subst hx
        exact ⟨e, he, hl⟩

/-- C5: with a non-empty configured extension list a file passes the
extension filter iff the text after the last `.` of its name equals some
entry of the list case-insensitively (a name with no `.` fails); with an
empty list every file passes; `a.TXT` passes under `txt`, `a.text` does
not. -/
theorem C5_ext_filter_characterization :
    (∀ name : List Char, ext_allowed name [] = true) ∧
    (∀ name csv : List Char, csv ≠ [] →
      (ext_allowed name csv = true ↔
        ∃ ext, extAfterLastDot name = some ext ∧
          ∃ e ∈ csvEntries csv, lowEq ext e = true)) ∧
    (∀ name csv : List Char, csv ≠ [] → '.' ∉ name →
      ext_allowed name csv = false) ∧
    ext_allowed "a.TXT".data "txt".data = true ∧
    ext_allowed "a.text".data "txt".data = false := by
  refine ⟨fun name => by rw [ext_allowed, if_pos rfl],
    fun name csv h => ext_allowed_iff name csv h, ?_, ?_, ?_⟩
  · intro name csv hcsv hdot
    simp [ext_allowed, hcsv, extAfterLastDot, hdot]
  · simp [ext_allowed, extAfterLastDot, entLoop, isExtSep, lowEq]
  · simp [ext_allowed, extAfterLastDot, entLoop, isExtSep, lowEq]

/-- C5 witness: the characterization applied at concrete inputs. -/
theorem C5_ext_filter_characterization_w :
    ext_allowed "f.c".data [] = true ∧
    (ext_allowed "f.c".data "c,h".data = true ↔
      ∃ ext, extAfterLastDot "f.c".data = some ext ∧
        ∃ e ∈ csvEntries "c,h".data, lowEq ext e = true) ∧
    ext_allowed "noext".data "c,h".data = false :=
  ⟨C5_ext_filter_characterization.1 _,
   C5_ext_filter_characterization.2.1 _ _ (by decide),
   C5_ext_filter_characterization.2.2.1 _ _ (by decide) (by decide)⟩

/-- C10: a non-empty extension list made only of commas, spaces and tabs
yields no entry and so rejects every file name — in contrast to the empty
list, which allows all files. -/
theorem C10_all_separator_list_rejects :
    (∀ name csv : List Char, csv ≠ [] → (∀ c ∈ csv, isExtSep c = true) →
      ext_allowed name csv = false) ∧
    (∀ name : List Char, ext_allowed name [] = true) ∧
    ext_allowed "a.txt".data " ,\t".data = false := by
  refine ⟨?_, fun name => by rw [ext_allowed, if_pos rfl], ?_⟩
  · intro name csv hcsv hsep
    rw [ext_allowed, if_neg hcsv]
    cases extAfterLastDot name with
    | none => rfl
    | some ext =>
      dsimp only
      by_cases hext : ext = []
      · rw [if_pos hext]
      · rw [if_neg hext]
        exact entLoop_all_sep ext csv hsep
  · simp [ext_allowed, extAfterLastDot, entLoop, isExtSep, lowEq]

/-- C10 witness: concrete all-separator list. -/
theorem C10_all_separator_list_rejects_w :
    ext_allowed "a.txt".data ",, ".data = false :=
  C10_all_separator_list_rejects.1 _ _ (by decide) (by decide)

/-- C7: the substring filter is a case-insensitive contains test of the
needle against the base name — or the full path in `-f` mode — and the
empty needle always passes. -/
theorem C7_substring_filter :
    (∀ hay : List Char, wcontains_i hay [] = true) ∧
    (∀ hay needle : List Char,
      (wcontains_i hay needle = true ↔
        ∃ s t, hay.map Char.toLower = s ++ needle.map Char.toLower ++ t)) ∧
    (∀ cfg : Config, ∀ p n : List Char, cfg.match_full_path = true →
      fileMatches cfg p n =
        (ext_allowed n cfg.extcsv && wcontains_i (join_str p n) cfg.needle)) ∧
    (∀ cfg : Config, ∀ p n : List Char, cfg.match_full_path = false →
      fileMatches cfg p n =
        (ext_allowed n cfg.extcsv &&
          wcontains_i (basename_ptr (join_str p n)) cfg.needle)) := by
  refine ⟨fun hay => by rw [wcontains_i, if_pos rfl],
    fun hay needle => wcontains_iff hay needle, ?_, ?_⟩
  · intro cfg p n hf
    simp [fileMatches, hf]
  · intro cfg p n hf
    simp [fileMatches, hf]

/-- C7 witness: both match modes and the empty needle at concrete inputs. -/
theorem C7_substring_filter_w :
    wcontains_i "AbC".data [] = true ∧
    fileMatches ⟨"r".data, "b".data, [], true, 0⟩ "r".data "AbC.c".data =
      (ext_allowed "AbC.c".data [] &&
        wcontains_i (join_str "r".data "AbC.c".data) "b".data) ∧
    fileMatches ⟨"r".data, "b".data, [], false, 0⟩ "r".data "AbC.c".data =
      (ext_allowed "AbC.c".data [] &&
        wcontains_i (basename_ptr (join_str "r".data "AbC.c".data)) "b".data) :=
  ⟨C7_substring_filter.1 _,
   C7_substring_filter.2.2.1 _ _ _ rfl,
   C7_substring_filter.2.2.2 _ _ _ rfl⟩

/-- C6 counterexample: the list `" txt "` is the entry `txt` surrounded by
spaces; trimmed of surrounding whitespace it equals `txt`, yet `a.txt` is
rejected — the scan skips whitespace only *before* an entry, so the
trailing space stays part of it and the length comparison fails.  With the
leading space alone (`" txt"`) the file is accepted. -/
theorem C6_trailing_space_not_trimmed :
    ext_allowed "a.txt".data " txt ".data = false ∧
    ext_allowed "a.txt".data " txt".data = true := by
  constructor
  · simp [ext_allowed, extAfterLastDot, entLoop, isExtSep, lowEq]
  · simp [ext_allowed, extAfterLastDot, entLoop, isExtSep, lowEq]

/-- C6 (amended): the `-e` list entries are the comma-separated pieces of
the string with only their *leading* commas/spaces/tabs skipped — an entry
extends to the next comma or the end of the string, so trailing and
interior whitespace are part of it — and a file's extension is accepted
exactly when it equals such a non-empty piece case-insensitively. -/
theorem C6_leading_trim_only :
    (∀ name csv : List Char, csv ≠ [] →
      (ext_allowed name csv = true ↔
        ∃ ext, extAfterLastDot name = some ext ∧
          ∃ e ∈ ((splitComma csv).map (fun e => e.dropWhile isExtSep)).filter
            (fun e => e ≠ []),
            lowEq ext e = true)) ∧
    (∀ ext s l : List Char, (∀ c ∈ s, isExtSep c = true) →
      entLoop ext (s ++ l) = entLoop ext l) := by
  constructor
  · intro name csv hcsv
    rw [← csvEntries_eq_splitComma]
    exact ext_allowed_iff name csv hcsv
  · exact fun ext s l h => entLoop_append_sep ext s l h

/-- C6 witness: the amended characterization applied at concrete inputs. -/
theorem C6_leading_trim_only_w :
    (ext_allowed "a.txt".data "md, txt".data = true ↔
      ∃ ext, extAfterLastDot "a.txt".data = some ext ∧
        ∃ e ∈ ((splitComma "md, txt".data).map
            (fun e => e.dropWhile isExtSep)).filter (fun e => e ≠ []),
          lowEq ext e = true) ∧
    entLoop "txt".data (" ,".data ++ "txt".data) = entLoop "txt".data "txt".data :=
  ⟨C6_leading_trim_only.1 _ _ (by decide),
   C6_leading_trim_only.2 _ _ _ (by decide)⟩

-- ==================== work queue: C2 ====================

/-- C2: one atomic evaluation of `wq_pop` under the queue mutex is the
four-way case split: stop set ⇒ stop signal, state untouched; FIFO
non-empty ⇒ head removed and returned with the active count incremented in
the same step; empty and no active worker ⇒ stop set and stop signal
returned (all blocked consumers are woken, modelled by the `waiting`
workers' re-evaluation steps of `SysStep`); otherwise ⇒ block (and
re-evaluate after wakeup, again per `SysStep`). -/
theorem C2_wq_pop_cases (α : Type) (q : WorkQ α) :
    (q.stop = true → wq_pop_eval q = (.stopSignal, q)) ∧
    (q.stop = false → ∀ d rest, q.queue = d :: rest →
      wq_pop_eval q = (.dir d, ⟨rest, q.active + 1, false⟩)) ∧
    (q.stop = false → q.queue = [] → q.active = 0 →
      wq_pop_eval q = (.stopSignal, ⟨[], 0, true⟩)) ∧
    (q.stop = false → q.queue = [] → q.active ≠ 0 →
      wq_pop_eval q = (.block, q)) := by
  obtain ⟨qs, a, st⟩ := q
  refine ⟨?_, ?_, ?_, ?_⟩
  · intro h
    subst h
    rw [wq_pop_eval, if_pos rfl]
  · intro h d rest hq
    subst h
    subst hq
    rw [wq_pop_eval, if_neg (by simp)]
  · intro h hq ha
    subst h
    subst hq
    subst ha
    rw [wq_pop_eval, if_neg (by simp)]
    rfl
  · intro h hq ha
    subst h
    subst hq
    rw [wq_pop_eval, if_neg (by simp)]
    dsimp only
    rw [if_neg ha]

/-- C2 witness: the four cases at concrete queue states. -/
theorem C2_wq_pop_cases_w :
    wq_pop_eval (⟨[], 3, true⟩ : WorkQ Nat) = (.stopSignal, ⟨[], 3, true⟩) ∧
    wq_pop_eval (⟨[7, 8], 1, false⟩ : WorkQ Nat) = (.dir 7, ⟨[8], 2, false⟩) ∧
    wq_pop_eval (⟨[], 0, false⟩ : WorkQ Nat) = (.stopSignal, ⟨[], 0, true⟩) ∧
    wq_pop_eval (⟨[], 2, false⟩ : WorkQ Nat) = (.block, ⟨[], 2, false⟩) :=
  ⟨(C2_wq_pop_cases Nat _).1 rfl,
   (C2_wq_pop_cases Nat _).2.1 rfl 7 [8] rfl,
   (C2_wq_pop_cases Nat _).2.2.1 rfl rfl rfl,
   (C2_wq_pop_cases Nat _).2.2.2 rfl rfl (by decide)⟩

-- ==================== wmain: C8, C9 ====================

/-- C8: exit code 2 when positional arguments are missing or a flag is
unknown (usage path, before any traversal — `wmain_exit` consults nothing
but the arguments and the two startup allocations); 1 when a startup
allocation fails; 0 on every run that gets past startup, regardless of how
many matches are found. -/
theorem C8_exit_codes :
    (∀ (argv : List (List Char)) (a b : Bool),
      parseArgs argv = none → wmain_exit argv a b = 2) ∧
    (∀ (argv : List (List Char)) (a b : Bool),
      argv.length < 3 → wmain_exit argv a b = 2) ∧
    (∀ (argv : List (List Char)) (cfg : Config) (b : Bool),
      parseArgs argv = some cfg → wmain_exit argv false b = 1) ∧
    (∀ (argv : List (List Char)) (cfg : Config),
      parseArgs argv = some cfg → wmain_exit argv true false = 1) ∧
    (∀ (argv : List (List Char)) (cfg : Config),
      parseArgs argv = some cfg → wmain_exit argv true true = 0) ∧
    parseArgs ["ffind".data, "C:\\x".data, "q".data, "-z".data] = none := by
  refine ⟨?_, ?_, ?_, ?_, ?_, rfl⟩
  · intro argv a b h
    simp [wmain_exit, h]
  · intro argv a b h
    have hnone : parseArgs argv = none := by
      match argv with
      | [] => rfl
      | [_] => rfl
      | [_, _] => rfl
      | _ :: _ :: _ :: _ => simp [List.length_cons] at h; omega
    simp [wmain_exit, hnone]
  · intro argv cfg b h
    simp [wmain_exit, h]
  · intro argv cfg h
    simp [wmain_exit, h]
  · intro argv cfg h
    simp [wmain_exit, h]

/-- C8 witness: each exit code at concrete inputs. -/
theorem C8_exit_codes_w :
    wmain_exit ["ffind".data] true true = 2 ∧
    wmain_exit ["ffind".data, "C:\\x".data, "q".data, "-z".data] true true = 2 ∧
    wmain_exit ["ffind".data, "C:\\x".data, "q".data] false true = 1 ∧
    wmain_exit ["ffind".data, "C:\\x".data, "q".data] true false = 1 ∧
    wmain_exit ["ffind".data, "C:\\x".data, "q".data] true true = 0 :=
  ⟨C8_exit_codes.2.1 _ true true (by decide),
   C8_exit_codes.1 _ true true rfl,
   C8_exit_codes.2.2.1 _ ⟨"C:\\x".data, "q".data, [], false, 0⟩ true rfl,
   C8_exit_codes.2.2.2.1 _ ⟨"C:\\x".data, "q".data, [], false, 0⟩ rfl,
   C8_exit_codes.2.2.2.2.1 _ ⟨"C:\\x".data, "q".data, [], false, 0⟩ rfl⟩

/-- C9: a non-numeric `-t` value parses to 0 via `_wtoi` and an omitted
`-t` leaves the initial 0, neither is an error; any non-positive parsed
count is silently replaced by the processor count floored at one. -/
theorem C9_thread_count_default :
    wtoi "abc".data = 0 ∧
    parseArgs ["ffind".data, "C:\\x".data, "q".data, "-t".data, "abc".data] =
      some ⟨"C:\\x".data, "q".data, [], false, 0⟩ ∧
    parseArgs ["ffind".data, "C:\\x".data, "q".data] =
      some ⟨"C:\\x".data, "q".data, [], false, 0⟩ ∧
    (∀ t nproc : Int, t ≤ 0 → effThreads t nproc = max 1 nproc) ∧
    (∀ t nproc : Int, t ≤ 0 → 1 ≤ effThreads t nproc) := by
  refine ⟨rfl, rfl, rfl, ?_, ?_⟩
  · intro t nproc ht
    rw [effThreads, if_pos ht]
    by_cases h : nproc < 1
    · rw [if_pos h, max_eq_left (by omega)]
    · rw [if_neg h, max_eq_right (by omega)]
  · intro t nproc ht
    rw [effThreads, if_pos ht]
    by_cases h : nproc < 1
    · rw [if_pos h]
    · rw [if_neg h]
      omega

/-- C9 witness: defaulting applied at concrete counts. -/
theorem C9_thread_count_default_w :
    effThreads 0 8 = max 1 8 ∧ (1 : Int) ≤ effThreads (-2) 0 :=
  ⟨C9_thread_count_default.2.2.2.1 0 8 (by decide),
   C9_thread_count_default.2.2.2.2 (-2) 0 (by decide)⟩

-- ==================== work queue: C3 ====================

/-- One step preserves the queue-system invariant: the active count equals
the number of holding workers, and once `stop` is set the FIFO is empty and
the active count zero. -/
theorem sysInv_step {α : Type} {s t : WorkQ α × List WkSt} (h : SysStep α s t)
    (h1 : s.1.active = s.2.count WkSt.holding)
    (h2 : s.1.stop = true → s.1.queue = [] ∧ s.1.active = 0) :
    (t.1.active = t.2.count WkSt.holding) ∧
    (t.1.stop = true → t.1.queue = [] ∧ t.1.active = 0) := by
  cases h with
  | popTake d rest a pre post w hw =>
    dsimp only at h1 h2 ⊢
    refine ⟨?_, fun hh => by simp at hh⟩
    rw [List.count_append, List.count_cons_self]
    rw [List.count_append] at h1
    rcases hw with rfl | rfl <;>
      rw [List.count_cons_of_ne (by decide)] at h1 <;> omega
  | popStop pre post w hw =>
    dsimp only at h1 h2 ⊢
    refine ⟨?_, fun _ => ⟨rfl, rfl⟩⟩
    rw [List.count_append, List.count_cons_of_ne (by decide)]
    rw [List.count_append] at h1
    rcases hw with rfl | rfl <;>
      rw [List.count_cons_of_ne (by decide)] at h1 <;> omega
  | popSeeStop q pre post w hw hstop =>
    dsimp only at h1 h2 ⊢
    refine ⟨?_, h2⟩
    rw [List.count_append, List.count_cons_of_ne (by decide)]
    rw [List.count_append] at h1
    rcases hw with rfl | rfl <;>
      rw [List.count_cons_of_ne (by decide)] at h1 <;> omega
  | popBlock a pre post ha =>
    dsimp only at h1 h2 ⊢
    refine ⟨?_, fun hh => by simp at hh⟩
    rw [List.count_append, List.count_cons_of_ne (by decide)]
    rw [List.count_append, List.count_cons_of_ne (by decide)] at h1
    omega
  | push q d pre post =>
    dsimp only at h1 h2 ⊢
    refine ⟨h1, fun hh => ?_⟩
    exfalso
    obtain ⟨-, h0⟩ := h2 hh
    rw [List.count_append, List.count_cons_self] at h1
    omega
  | doneOne q pre post =>
    dsimp only at h1 h2 ⊢
    refine ⟨?_, fun hh => ?_⟩
    · rw [List.count_append, List.count_cons_of_ne (by decide)]
      rw [List.count_append, List.count_cons_self] at h1
      omega
    · exfalso
      obtain ⟨-, h0⟩ := h2 hh
      rw [List.count_append, List.count_cons_self] at h1
      omega

/-- The invariant holds in every reachable state of the queue system. -/
theorem sysInv_reach {α : Type} {root : α} {K : Nat}
    {s : WorkQ α × List WkSt} (h : SysReach root K s) :
    (s.1.active = s.2.count WkSt.holding) ∧
    (s.1.stop = true → s.1.queue = [] ∧ s.1.active = 0) := by
  unfold SysReach at h
  induction h with
  | refl =>
    constructor
    · exact (List.count_eq_zero.mpr (by simp [sysInit, List.mem_replicate])).symm
    · intro hh
      simp [sysInit] at hh
  | tail hst hstep ih => exact sysInv_step hstep ih.1 ih.2

/-- C3: in every reachable state of the work-queue system, `stop` is set
only with the collection empty and the active count zero; every step from a
stopped state keeps `stop` set and the queue empty; after `stop` no worker
holds a directory, so no push is enabled (pushes come only from holding
workers); the step that sets `stop` sees the empty-and-idle instant; and
whenever some worker is blocked, some step is enabled (no missed wakeup, no
deadlock). -/
theorem C3_termination_protocol (α : Type) (root : α) (K : Nat)
    (s : WorkQ α × List WkSt) (h : SysReach root K s) :
    (s.1.stop = true → s.1.queue = [] ∧ s.1.active = 0) ∧
    (∀ t, SysStep α s t → s.1.stop = true → t.1.stop = true ∧ t.1.queue = []) ∧
    (s.1.stop = true → ∀ w ∈ s.2, w ≠ WkSt.holding) ∧
    (∀ t, SysStep α s t → s.1.stop = false → t.1.stop = true →
      s.1.queue = [] ∧ s.1.active = 0) ∧
    ((∃ pre post, s.2 = pre ++ WkSt.waiting :: post) → ∃ t, SysStep α s t) := by
  obtain ⟨hc, hs⟩ := sysInv_reach h
  refine ⟨hs, ?_, ?_, ?_, ?_⟩
  · intro t hstep hstop
    cases hstep with
    | popTake d rest a pre post w hw => simp at hstop
    | popStop pre post w hw => simp at hstop
    | popSeeStop q pre post w hw hq => exact ⟨hstop, (hs hstop).1⟩
    | popBlock a pre post ha => simp at hstop
    | push q d pre post =>
      exfalso
      obtain ⟨-, h0⟩ := hs hstop
      dsimp only at hc h0
      rw [List.count_append, List.count_cons_self] at hc
      omega
    | doneOne q pre post =>
      exfalso
      obtain ⟨-, h0⟩ := hs hstop
      dsimp only at hc h0
      rw [List.count_append, List.count_cons_self] at hc
      omega
  · intro hstop w hw hwh
    subst hwh
    have hpos : 0 < s.2.count WkSt.holding := List.count_pos_iff.mpr hw
    obtain ⟨-, h0⟩ := hs hstop
    omega
  · intro t hstep hsf hst
    cases hstep with
    | popTake d rest a pre post w hw => simp at hst
    | popStop pre post w hw => exact ⟨rfl, rfl⟩
    | popSeeStop q pre post w hw hq => rw [hq] at hsf; simp at hsf
    | popBlock a pre post ha => simp at hst
    | push q d pre post => rw [hsf] at hst; simp at hst
    | doneOne q pre post => rw [hsf] at hst; simp at hst
  · rintro ⟨pre, post, hws⟩
    obtain ⟨⟨qs, qa, qst⟩, ws⟩ := s
    have hws' : ws = pre ++ WkSt.waiting :: post := hws
    subst hws'
    cases qst with
    | true =>
      exact ⟨_, SysStep.popSeeStop ⟨qs, qa, true⟩ pre post WkSt.waiting
        (Or.inr rfl) rfl⟩
    | false =>
      cases qs with
      | cons d rest =>
        exact ⟨_, SysStep.popTake d rest qa pre post WkSt.waiting (Or.inr rfl)⟩
      | nil =>
        by_cases ha : qa = 0
        · subst ha
          exact ⟨_, SysStep.popStop pre post WkSt.waiting (Or.inr rfl)⟩
        · have hc' : qa = (pre ++ WkSt.waiting :: post).count WkSt.holding := hc
          have hpos : 0 < (pre ++ WkSt.waiting :: post).count WkSt.holding := by
            omega
          have hmem := List.count_pos_iff.mp hpos
          obtain ⟨l1, l2, hsp⟩ := List.append_of_mem hmem
          rw [hsp]
          exact ⟨_, SysStep.doneOne ⟨[], qa, false⟩ l1 l2⟩

/-- C3 witness: a complete one-worker run reaches the stopped state, where
the theorem yields the empty-and-idle terminal configuration. -/
theorem C3_termination_protocol_w :
    (⟨⟨[], 0, true⟩, [WkSt.stopped]⟩ : WorkQ Nat × List WkSt).1.queue = [] ∧
    (⟨⟨[], 0, true⟩, [WkSt.stopped]⟩ : WorkQ Nat × List WkSt).1.active = 0 :=
  (C3_termination_protocol Nat 0 1 ⟨⟨[], 0, true⟩, [WkSt.stopped]⟩
    (Relation.ReflTransGen.head
      (SysStep.popTake 0 [] 0 [] [] WkSt.idle (Or.inl rfl))
      (Relation.ReflTransGen.head
        (SysStep.doneOne ⟨[], 1, false⟩ [] [])
        (Relation.ReflTransGen.head
          (SysStep.popStop [] [] WkSt.idle (Or.inl rfl))
          Relation.ReflTransGen.refl)))).1 rfl

-- ==================== worker loop: C4 ====================

/-- Exactly the non-reparse directory entries (that are not `.`/`..` and
whose joined path fits) are pushed for a processed directory. -/
theorem pushedFrom_mem (listDir : List Char → Option (List DEnt))
    (p q : List Char) :
    q ∈ pushedFrom listDir p ↔
      glob_fits p = true ∧ ∃ es, listDir p = some es ∧ ∃ e ∈ es,
        is_dot_or_dotdot e.name = false ∧ join_fits p e.name = true ∧
        e.isDir = true ∧ e.reparse = false ∧ q = join_str p e.name := by
  rw [pushedFrom]
  by_cases hg : glob_fits p = true
  · rw [if_pos hg]
    cases hld : listDir p with
    | none => simp [hg]
    | some es =>
      simp only [List.mem_map, List.mem_filter, hg, true_and, Option.some.injEq]
      constructor
      · rintro ⟨e, ⟨he, hf⟩, rfl⟩
        refine ⟨es, rfl, e, he, ?_⟩
        simp only [Bool.and_eq_true, Bool.not_eq_true'] at hf
        exact ⟨hf.1.1.1, hf.1.1.2, hf.1.2, hf.2, rfl⟩
      · rintro ⟨es', hes', e, he, h1, h2, h3, h4, rfl⟩
        subst hes'
        exact ⟨e, ⟨he, by simp [h1, h2, h3, h4]⟩, rfl⟩
  · rw [if_neg hg]
    simp only [List.not_mem_nil, false_iff]
    rintro ⟨hg2, -⟩
    exact hg hg2

/-- C4: a directory entry flagged as a reparse point is never pushed onto
the work queue — `pushedFrom` keeps exactly the non-reparse directory
entries — and, given any rank function under which each directory outweighs
the directories it pushes (such a rank exists precisely because non-reparse
directories form a well-founded structure: only link edges can close a
cycle, and those are skipped), every queue evolution strictly decreases the
total rank, so a run of `n` steps satisfies `rank + n ≤ initial rank`: the
traversal terminates even when reparse links form a cycle back to an
ancestor. -/
theorem C4_reparse_skip_termination (listDir : List Char → Option (List DEnt)) :
    (∀ p q, q ∈ pushedFrom listDir p ↔
      glob_fits p = true ∧ ∃ es, listDir p = some es ∧ ∃ e ∈ es,
        is_dot_or_dotdot e.name = false ∧ join_fits p e.name = true ∧
        e.isDir = true ∧ e.reparse = false ∧ q = join_str p e.name) ∧
    (∀ m : List Char → Nat,
      (∀ p, totalWeight m (pushedFrom listDir p) < m p) →
      ∀ (f : Nat → List (List Char)) (n : Nat),
        (∀ i, i < n → GStep listDir (f i) (f (i + 1))) →
        totalWeight m (f n) + n ≤ totalWeight m (f 0)) := by
  constructor
  · exact pushedFrom_mem listDir
  · intro m hm f n hsteps
    have key : ∀ a b, GStep listDir a b →
        totalWeight m b + 1 ≤ totalWeight m a := by
      intro a b hab
      cases hab with
      | proc pre post p =>
        have hp := hm p
        simp only [totalWeight, List.map_append, List.sum_append,
          List.map_cons, List.sum_cons] at hp ⊢
        omega
    induction n with
    | zero => omega
    | succ n ih =>
      have h1 := key (f n) (f (n + 1)) (hsteps n (Nat.lt_succ_self n))
      have h2 := ih fun i hi => hsteps i (Nat.lt_succ_of_lt hi)
      omega

/-- C4 witness: an oracle in which *every* directory contains a
reparse-flagged subdirectory `loop` — an unboundedly cyclic link structure.
No directory pushes anything (the link is skipped), the constant rank 1
satisfies the decrease hypothesis, and the one-step run from the seeded root
empties the queue within its rank bound. -/
theorem C4_reparse_skip_termination_w :
    totalWeight (fun _ => 1) [] + 1 ≤ totalWeight (fun _ => 1) ["r".data] :=
  (C4_reparse_skip_termination (fun _ => some [⟨"loop".data, true, true⟩])).2
    (fun _ => 1)
    (by
      intro p
      by_cases hg : glob_fits p = true <;>
        simp [pushedFrom, totalWeight, hg, is_dot_or_dotdot])
    (fun i => if i = 0 then ["r".data] else [])
    1
    (by
      intro i hi
      have hi0 : i = 0 := by omega
      subst hi0
      show GStep _ ([] ++ "r".data :: [])
        ([] ++ [] ++ pushedFrom (fun _ => some [⟨"loop".data, true, true⟩]) "r".data)
      exact GStep.proc [] [] "r".data)

-- ==================== worker loop: C1 ====================

/-- Pushed subdirectories of a well-formed directory are well-formed. -/
theorem procEntries_good (cfg : Config) (p : List Char) (es : List FsNode)
    (hg : goodList p es = true) :
    ∀ q ∈ (procEntries cfg p es).1, goodDir q.1 q.2 = true := by
  induction es with
  | nil => intro q hq; simp [procEntries] at hq
  | cons e rest ih =>
    cases e with
    | file n =>
      simp only [goodList, Bool.and_eq_true, Bool.not_eq_true'] at hg
      obtain ⟨⟨hd, hf⟩, hrest⟩ := hg
      intro q hq
      simp only [procEntries, hd, hf, Bool.false_eq_true, if_false, if_true] at hq
      by_cases hm : fileMatches cfg p n = true
      · rw [if_pos hm] at hq
        exact ih hrest q hq
      · rw [if_neg hm] at hq
        exact ih hrest q hq
    | dir n rp ch =>
      simp only [goodList, Bool.and_eq_true, Bool.not_eq_true'] at hg
      obtain ⟨⟨⟨hd, hf⟩, hch⟩, hrest⟩ := hg
      intro q hq
      simp only [procEntries, hd, hf, Bool.false_eq_true, if_false, if_true] at hq
      by_cases hrp : rp = true
      · rw [if_pos hrp] at hq
        exact ih hrest q hq
      · rw [if_neg hrp] at hq
        rcases List.mem_cons.mp hq with h1 | h2
        · subst h1
          rw [Bool.of_not_eq_true hrp, Bool.false_or] at hch
          show goodDir (join_str p n) ch = true
          rw [goodDir]
          exact hch
        · exact ih hrest q h2

/-- Processing one well-formed directory accounts exactly for its reference
matches: printed paths plus the reference matches of the pushed
subdirectories equal the reference matches of the directory. -/
theorem procEntries_spec (cfg : Config) (p : List Char) (es : List FsNode)
    (hg : goodList p es = true) :
    ((procEntries cfg p es).2 : Multiset (List Char)) +
      pendingSpec cfg (procEntries cfg p es).1 =
    (specMatches cfg p es : Multiset (List Char)) := by
  induction es with
  | nil => simp [procEntries, specMatches, pendingSpec]
  | cons e rest ih =>
    cases e with
    | file n =>
      simp only [goodList, Bool.and_eq_true, Bool.not_eq_true'] at hg
      obtain ⟨⟨hd, hf⟩, hrest⟩ := hg
      have iht := ih hrest
      simp only [procEntries, specMatches, hd, hf, Bool.false_eq_true,
        if_false, if_true]
      by_cases hm : fileMatches cfg p n = true
      · rw [if_pos hm, if_pos hm]
        show (↑(join_str p n :: (procEntries cfg p rest).2) : Multiset (List Char)) +
          pendingSpec cfg (procEntries cfg p rest).1 =
          ↑(join_str p n :: specMatches cfg p rest)
        rw [← Multiset.cons_coe, ← Multiset.cons_coe, Multiset.cons_add, iht]
      · rw [if_neg hm, if_neg hm]
        simpa using iht
    | dir n rp ch =>
      simp only [goodList, Bool.and_eq_true, Bool.not_eq_true'] at hg
      obtain ⟨⟨⟨hd, hf⟩, hch⟩, hrest⟩ := hg
      have iht := ih hrest
      simp only [procEntries, specMatches, hd, hf, Bool.false_eq_true,
        if_false, if_true]
      by_cases hrp : rp = true
      · rw [if_pos hrp, if_pos hrp]
        simpa using iht
      · rw [if_neg hrp, if_neg hrp]
        simp only [pendingSpec, List.map_cons, List.sum_cons, Multiset.coe_add]
        simp only [pendingSpec] at iht
        rw [add_left_comm, iht]
        rfl

/-- One run step preserves well-formedness of the pending directories and
the accounting between printed output and pending reference matches. -/
theorem runStep_inv (cfg : Config) {s t : RunSt} (h : RunStep cfg s t)
    (hg : ∀ q ∈ s.pending, goodDir q.1 q.2 = true) :
    (∀ q ∈ t.pending, goodDir q.1 q.2 = true) ∧
    ((t.out : Multiset (List Char)) + pendingSpec cfg t.pending =
     (s.out : Multiset (List Char)) + pendingSpec cfg s.pending) := by
  cases h with
  | proc pre post p es out =>
    have hpe : goodDir p es = true := hg (p, es) (by simp)
    rw [goodDir, Bool.and_eq_true] at hpe
    obtain ⟨hgf, hgl⟩ := hpe
    have hproc : procDir cfg p es = procEntries cfg p es := by
      rw [procDir, if_pos hgf]
    constructor
    · intro q hq
      dsimp only at hq
      rw [hproc] at hq
      rcases List.mem_append.mp hq with h1 | h2
      · rcases List.mem_append.mp h1 with ha | hb
        · exact hg q (by simp [ha])
        · exact hg q (by simp [hb])
      · exact procEntries_good cfg p es hgl q h2
    · dsimp only
      rw [hproc]
      have hspec := procEntries_spec cfg p es hgl
      simp only [pendingSpec, List.map_append, List.sum_append, List.map_cons,
        List.sum_cons, Multiset.coe_add] at hspec ⊢
      rw [← hspec]
      have hsplit : (↑(out ++ (procEntries cfg p es).2) : Multiset (List Char)) =
          ↑out + ↑(procEntries cfg p es).2 := rfl
      rw [hsplit]
      abel

/-- The accounting invariant holds along every run. -/
theorem runReach_inv (cfg : Config) {s t : RunSt}
    (h : Relation.ReflTransGen (RunStep cfg) s t)
    (hg : ∀ q ∈ s.pending, goodDir q.1 q.2 = true) :
    (∀ q ∈ t.pending, goodDir q.1 q.2 = true) ∧
    ((t.out : Multiset (List Char)) + pendingSpec cfg t.pending =
     (s.out : Multiset (List Char)) + pendingSpec cfg s.pending) := by
  induction h with
  | refl => exact ⟨hg, rfl⟩
  | tail hab hbc ih =>
    obtain ⟨ih1, ih2⟩ := ih
    obtain ⟨j1, j2⟩ := runStep_inv cfg hbc ih1
    exact ⟨j1, by rw [j2, ih2]⟩

/-- C1: for a static, well-formed (within-capacity, no `.`/`..` names)
directory tree, every complete traversal run — any interleaving of any
number of workers, since the step relation lets any pending directory be
processed next — prints exactly the reference match multiset: each file
reachable without entering reparse directories that passes both filters is
printed once per occurrence (hence exactly once when paths are distinct),
and any two complete runs print permutations of each other, so the match
set does not depend on the worker count. -/
theorem C1_match_set (cfg : Config) (root : List Char) (es : List FsNode)
    (out : List (List Char)) (hg : goodDir root es = true)
    (hrun : Relation.ReflTransGen (RunStep cfg) ⟨[(root, es)], []⟩ ⟨[], out⟩) :
    out.Perm (specMatches cfg root es) ∧
    (∀ out₂, Relation.ReflTransGen (RunStep cfg) ⟨[(root, es)], []⟩ ⟨[], out₂⟩ →
      out₂.Perm out) := by
  have hg0 : ∀ q ∈ ([(root, es)] : List (List Char × List FsNode)),
      goodDir q.1 q.2 = true := by
    intro q hq
    rcases List.mem_singleton.mp hq with rfl
    exact hg
  have key : ∀ o, Relation.ReflTransGen (RunStep cfg) ⟨[(root, es)], []⟩ ⟨[], o⟩ →
      (o : Multiset (List Char)) = (specMatches cfg root es : Multiset (List Char)) := by
    intro o ho
    have h2 := (runReach_inv cfg ho hg0).2
    simp only [pendingSpec, List.map_nil, List.sum_nil, List.map_cons,
      List.sum_cons, add_zero, Multiset.coe_nil, zero_add] at h2
    simpa using h2
  refine ⟨Multiset.coe_eq_coe.mp (key out hrun), fun o2 h2 => ?_⟩
  exact Multiset.coe_eq_coe.mp ((key o2 h2).trans (key out hrun).symm)

/-- C1 witness: a one-file tree, processed by a complete one-step run. -/
theorem C1_match_set_w :
    ["r\\a.c".data].Perm
      (specMatches ⟨"r".data, "a".data, [], false, 0⟩ "r".data
        [FsNode.file "a.c".data]) :=
  (C1_match_set ⟨"r".data, "a".data, [], false, 0⟩ "r".data
    [FsNode.file "a.c".data] ["r\\a.c".data]
    (by simp [goodDir, goodList, glob_fits, join_fits, needsSlash, CAPACITY,
      is_dot_or_dotdot])
    (Relation.ReflTransGen.single
      (RunStep.proc [] [] "r".data [FsNode.file "a.c".data] []))).1

/-- C1 counterexample to the unrestricted claim: under a root path of 2080
characters the glob pattern `root\*` no longer fits the `MAX_PATH * 8`
working buffer, so the worker abandons the directory (src/ffind.c:219–223)
and a complete run prints nothing, although the directory holds a file that
is reachable and passes both filters (empty needle, empty extension list).
The match-set statement therefore needs the within-capacity hypothesis of
`C1_match_set`. -/
theorem C1_capacity_skip_counterexample :
    Relation.ReflTransGen
      (RunStep ⟨List.replicate 2080 'r', [], [], false, 0⟩)
      ⟨[(List.replicate 2080 'r', [FsNode.file "a.c".data])], []⟩ ⟨[], []⟩ ∧
    fileMatches ⟨List.replicate 2080 'r', [], [], false, 0⟩
      (List.replicate 2080 'r') "a.c".data = true ∧
    specMatches ⟨List.replicate 2080 'r', [], [], false, 0⟩
      (List.replicate 2080 'r') [FsNode.file "a.c".data] ≠ [] := by
  have hwc : ∀ h : List Char, wcontains_i h [] = true := fun h => by
    rw [wcontains_i, if_pos rfl]
  have hea : ext_allowed "a.c".data [] = true := by
    rw [ext_allowed, if_pos rfl]
  have hfm : fileMatches ⟨List.replicate 2080 'r', [], [], false, 0⟩
      (List.replicate 2080 'r') "a.c".data = true := by
    dsimp only [fileMatches]
    rw [hea, hwc]
    rfl
  have hglob : glob_fits (List.replicate 2080 'r') = false := by
    by_cases hn : needsSlash (List.replicate 2080 'r') = true
    · simp only [glob_fits, hn, if_true, List.length_replicate]
      decide
    · simp only [glob_fits, Bool.of_not_eq_true hn, Bool.false_eq_true,
        if_false, List.length_replicate]
      decide
  have hpd : procDir ⟨List.replicate 2080 'r', [], [], false, 0⟩
      (List.replicate 2080 'r') [FsNode.file "a.c".data] = ([], []) := by
    rw [procDir, hglob]
    simp
  refine ⟨?_, hfm, ?_⟩
  · have hstep := @RunStep.proc ⟨List.replicate 2080 'r', [], [], false, 0⟩
      [] [] (List.replicate 2080 'r') [FsNode.file "a.c".data] []
    rw [hpd] at hstep
    simp only [List.nil_append, List.append_nil] at hstep
    exact Relation.ReflTransGen.single hstep
  · simp only [specMatches]
    rw [hfm, if_pos rfl]
    simp only [List.append_nil, ne_eq]
    exact List.cons_ne_nil _ _
